import Mathlib

/-!
Verification of the barrel-generator tool (`src/tool/auto-barrel-shotgun.ts`).

The development shallowly embeds the tool:

* `IsLetterNumber`, `Namespace` : the identifier deriver (source lines 90-122);
* `Context`, `Context.ignored`, `Context.fullPath` : the ignore context
  (source lines 13-43);
* `WeakRead`, `loadRules`, `barrel` / `barrelEntries` / `barrelEntry` :
  the tree walker (source lines 5-11 and 45-87), modelled over an explicit
  filesystem tree; filesystem writes are collected into an explicit list.

The external gitignore-style pattern engine (the `ignore` npm package) is
abstracted as a function `String → Bool` giving the result of
`rules.test(path).ignored`, and its `ignore().add(text)` compiler as an
arbitrary parameter `compile : String → String → Bool`, exactly as the spec
treats the Pattern Matcher as an external capability.
-/

/-- Model of `IsLetterNumber` (source lines 115-122): `charCodeAt(0)` range
checks for ASCII lower, upper and digit. -/
def IsLetterNumber (c : Char) : Bool :=
  let char := c.toNat
  (97 ≤ char && char ≤ 122) || (65 ≤ char && char ≤ 90) || (48 ≤ char && char ≤ 57)

/-- Index of the last occurrence of `c`, as `str.lastIndexOf(c)` computes it
(`none` models the JS result `-1`). -/
def lastIndexOf (c : Char) : List Char → Option Nat
  | [] => none
  | x :: rest =>
    match lastIndexOf c rest with
    | some j => some (j + 1)
    | none => if x == c then some 0 else none

/-- The character-scanning loop of `Namespace` (source lines 96-110): walk the
stem with the `capital` flag, dropping non-alphanumerics (setting the flag) and
emitting alphanumerics upper-cased at a segment start, lower-cased otherwise.
`Char.toUpper`/`Char.toLower` model JS `toUpperCase`/`toLowerCase`, which agree
on the ASCII alphanumerics this loop applies them to. -/
def NamespaceCore : Bool → List Char → List Char
  | _, [] => []
  | capital, c :: rest =>
    if IsLetterNumber c then
      (if capital then c.toUpper else c.toLower) :: NamespaceCore false rest
    else
      NamespaceCore true rest

/-- Model of `Namespace` (source lines 90-113): strip from the last `.` onward
via `lastIndexOf`/`slice`, return `""` for an empty stem, else run the scanning
loop with the flag initially true. -/
def Namespace (str : String) : String :=
  let chars := str.data
  let stem :=
    match lastIndexOf '.' chars with
    | some i => chars.take i
    | none => chars
  if stem.length < 1 then "" else String.mk (NamespaceCore true stem)

/-- Model of the `Context` class fields (source lines 13-27): own folder name
(with trailing separator), optional compiled rule set, optional parent. -/
inductive Context where
  | mk (folder : String) (rules : Option (String → Bool)) (parent : Option Context)

/-- Accessor for the `folder` field. -/
def Context.folder : Context → String
  | .mk f _ _ => f

/-- Accessor for the `rules` field. -/
def Context.rules : Context → Option (String → Bool)
  | .mk _ r _ => r

/-- Accessor for the `parent` field. -/
def Context.parent : Context → Option Context
  | .mk _ _ p => p

/-- `fullPath` as computed by the constructor (source lines 23-25):
the parent's `fullPath` concatenated with the folder name, or the folder name
alone at the root. -/
def Context.fullPath : Context → String
  | .mk folder _ none => folder
  | .mk folder _ (some p) => p.fullPath ++ folder

/-- Model of `Context.ignored` (source lines 29-43): the two structural
exceptions first, then the local rule set (a positive test short-circuits to
`true`), then the parent consulted on `folder + path`, `false` at the root. -/
def Context.ignored : Context → String → Bool
  | .mk folder rules parent, path =>
    if path == ".git" then false
    else if path == "node_modules" then false
    else if (match rules with | some r => r path | none => false) then true
    else
      match parent with
      | none => false
      | some p => p.ignored (folder ++ path)

/-- Model of `WeakRead` (source lines 5-11): a successful read returns the
content, any failure (absent or unreadable file) is caught and yields `null`,
modelled as `none`. -/
def WeakRead : Except Unit String → Option String
  | .ok content => some content
  | .error _ => none

/-- The rule-loading step at the top of `barrel` (source lines 46-49):
`WeakRead` the rule file and, if the result is truthy (non-null and non-empty),
compile it with the external engine; otherwise the rule set stays unset. -/
def loadRules (compile : String → String → Bool) (read : Except Unit String) :
    Option (String → Bool) :=
  match WeakRead read with
  | some content => if content == "" then none else some (compile content)
  | none => none

/-- One staged row of the aggregator (`includes` elements, source line 51):
the derived namespace identifier and the relative path re-exported. -/
structure Entry where
  nspace : String
  path : String
deriving DecidableEq

/-- The single-quote character, spelled via its code point. -/
def squote : String := String.singleton (Char.ofNat 39)

/-- One rendered re-export line (source line 79). -/
def renderLine (e : Entry) : String :=
  "export * as " ++ e.nspace ++ " from " ++ squote ++ "./" ++ e.path ++ squote ++ ";\n"

/-- The rendering loop (source lines 78-79): start from `""` and append one
line per collected entry, in order. -/
def render (includes : List Entry) : String :=
  includes.foldl (fun source e => source ++ renderLine e) ""

/-- Model of `name.startsWith('.')`: the one-character prefix test, as a test
on the first character. -/
def startsWithDot (name : String) : Bool :=
  match name.data with
  | [] => false
  | c :: _ => c == '.'

/-- The three unconditional skips at the top of the walker loop
(source lines 53-55): hidden names, the dependency cache, the aggregator
output filename itself. -/
def skipName (name : String) : Bool :=
  startsWithDot name || name == "node_modules" || name == "mod.ts"

mutual
/-- A filesystem tree node as the walker observes it: a plain file, a
directory (with the raw outcome of reading its `.barrelignore` and its listing
in readdir order), or anything else (symlink, device, ...). -/
inductive FNode where
  | file (name : String)
  | dir (name : String) (read : Except Unit String) (entries : FList)
  | other (name : String)
/-- A directory listing, in the order `readdir` yields it. -/
inductive FList where
  | nil
  | cons (head : FNode) (tail : FList)
end

/-- The name of a listing entry. -/
def FNode.name : FNode → String
  | .file n => n
  | .dir n _ _ => n
  | .other n => n

mutual
/-- The `for` loop of `barrel` over a directory listing (source lines 52-74):
concatenates, in listing order, each entry's contribution to `includes` and
the filesystem writes performed while processing it. -/
def barrelEntries (compile : String → String → Bool) (ctx : Context) :
    FList → List Entry × List (String × String)
  | .nil => ([], [])
  | .cons e rest =>
    let head := barrelEntry compile ctx e
    let tail := barrelEntries compile ctx rest
    (head.1 ++ tail.1, head.2 ++ tail.2)
termination_by structural l => l

/-- One iteration of the `barrel` loop (source lines 53-73): skip the three
unconditional names; recurse into a directory through a fresh child context
(inlining the recursive `barrel` body, lines 59-68 with 45-87) and stage an
entry for it only if it produced output; stage a plain file unless
`ignored` excludes it; skip anything else. -/
def barrelEntry (compile : String → String → Bool) (ctx : Context) :
    FNode → List Entry × List (String × String)
  | .file name =>
    if skipName name then ([], [])
    else if ctx.ignored name then ([], [])
    else ([⟨Namespace name, name⟩], [])
  | .dir name read entries =>
    if skipName name then ([], [])
    else
      let sub := Context.mk (name ++ "/") (loadRules compile read) (some ctx)
      let collected := barrelEntries compile sub entries
      if collected.1.length < 1 then ([], collected.2)
      else
        ([⟨Namespace name, name ++ "/mod.ts"⟩],
          collected.2 ++ [(sub.fullPath ++ "mod.ts", render collected.1)])
  | .other _ => ([], [])
termination_by structural n => n
end

/-- Model of `barrel` (source lines 45-87) on a directory with listing
`entries` and rule-file read outcome `read`, walked under a context built from
`folder` and `parent`: returns whether output was produced, paired with the
list of `(path, content)` filesystem writes in the order they happen. -/
def barrel (compile : String → String → Bool) (parent : Option Context)
    (folder : String) (read : Except Unit String) (entries : FList) :
    Bool × List (String × String) :=
  let ctx := Context.mk folder (loadRules compile read) parent
  let collected := barrelEntries compile ctx entries
  if collected.1.length < 1 then (false, collected.2)
  else (true, collected.2 ++ [(ctx.fullPath ++ "mod.ts", render collected.1)])

/-! ### Specification-side definitions

The following definitions are written from the specification text, to be
compared with the source-derived definitions above. -/

/-- From the spec: "strip the final extension (everything from the last `.`
onward, if any)", phrased without index arithmetic: when a dot occurs, the
stem is what stands before the last dot. -/
def stemSpec (l : List Char) : List Char :=
  if l.contains '.' then ((l.reverse.dropWhile fun c => !(c == '.')).drop 1).reverse
  else l

/-- From the spec: a character that is an ASCII letter or ASCII digit. -/
def isAsciiLetterOrDigit (c : Char) : Bool :=
  c.isAlpha || c.isDigit

/-- From the spec: one step of the left-to-right walk with the
"start of segment" flag — a non-alphanumeric sets the flag and contributes
nothing, an alphanumeric is appended upper-cased when the flag is set (then
cleared) and lower-cased otherwise. -/
def deriveStep (st : Bool × List Char) (c : Char) : Bool × List Char :=
  if isAsciiLetterOrDigit c then
    (false, st.2 ++ [if st.1 then c.toUpper else c.toLower])
  else
    (true, st.2)

/-- The claim's reference algorithm for `deriveIdentifier`: strip the final
extension, return `""` on an empty stem, otherwise fold the walk over the stem
with the flag initially true. -/
def deriveIdentifierSpec (s : String) : String :=
  let stem := stemSpec s.data
  if stem = [] then "" else String.mk (stem.foldl deriveStep (true, [])).2

/-- From the spec: the aggregator content is exactly the concatenation, in
collected order, of one newline-terminated re-export line per entry, with
nothing before, between or after them. -/
def concatLines : List Entry → String
  | [] => ""
  | e :: rest => renderLine e ++ concatLines rest

/-- From the spec: the walk of a directory whose rule file yielded no local
rules — identical to `barrel` except that the context's pattern set is
unconditionally unset. -/
def barrelNoLocalRules (compile : String → String → Bool) (parent : Option Context)
    (folder : String) (entries : FList) : Bool × List (String × String) :=
  let ctx := Context.mk folder none parent
  let collected := barrelEntries compile ctx entries
  if collected.1.length < 1 then (false, collected.2)
  else (true, collected.2 ++ [(ctx.fullPath ++ "mod.ts", render collected.1)])

mutual
/-- Relates a filesystem node before a run to the same node as a later run
lists it: identical, except that directory listings may have gained entries
named `mod.ts` (the aggregator files written by the earlier run). -/
inductive NodeAug : FNode → FNode → Prop where
  | file (n : String) : NodeAug (.file n) (.file n)
  | other (n : String) : NodeAug (.other n) (.other n)
  | dir (n : String) (r : Except Unit String) {es es' : FList} :
      ListAug es es' → NodeAug (.dir n r es) (.dir n r es')
/-- Relates a directory listing before a run to the listing a later run sees:
the same entries in the same order, with plain files named `mod.ts` possibly
inserted at any positions. -/
inductive ListAug : FList → FList → Prop where
  | nil : ListAug .nil .nil
  | cons {e e' : FNode} {l l' : FList} :
      NodeAug e e' → ListAug l l' → ListAug (.cons e l) (.cons e' l')
  | insertMod {l l' : FList} :
      ListAug l l' → ListAug l (.cons (.file "mod.ts") l')
end

example : Namespace "my-file.ts" = "MyFile" := by decide
example : Namespace ".ts" = "" := by decide
example : Namespace "a.b.ts" = "AB" := by decide
example : Namespace "2d.ts" = "2d" := by decide
example : Namespace "XMLHttpRequest.ts" = "Xmlhttprequest" := by decide
example : (Context.mk "./" none none).ignored ".git" = false := by decide
example :
    (Context.mk "./" (some fun p => p == "a.ts") none).ignored "a.ts" = true := by
  decide

/-! ### Helper lemmas: characters and the identifier deriver -/

theorem uint32_le_iff_toNat_le (a b : UInt32) : a ≤ b ↔ a.toNat ≤ b.toNat := by
  rw [UInt32.le_def, BitVec.le_def]
  exact Iff.rfl

theorem char_toNat_ofNat {m : Nat} (h : m.isValidChar) : (Char.ofNat m).toNat = m := by
  rw [Char.ofNat, dif_pos h]
  rfl

theorem isAsciiLetterOrDigit_eq (c : Char) : isAsciiLetterOrDigit c = IsLetterNumber c := by
  simp only [isAsciiLetterOrDigit, IsLetterNumber, Char.isAlpha, Char.isUpper, Char.isLower,
    Char.isDigit, Char.toNat, ge_iff_le]
  rw [Bool.eq_iff_iff]
  simp only [Bool.or_eq_true, Bool.and_eq_true, decide_eq_true_eq, uint32_le_iff_toNat_le]
  have h65 : (65 : UInt32).toNat = 65 := rfl
  have h90 : (90 : UInt32).toNat = 90 := rfl
  have h97 : (97 : UInt32).toNat = 97 := rfl
  have h122 : (122 : UInt32).toNat = 122 := rfl
  have h48 : (48 : UInt32).toNat = 48 := rfl
  have h57 : (57 : UInt32).toNat = 57 := rfl
  rw [h65, h90, h97, h122, h48, h57]
  omega

theorem isLetterNumber_iff {c : Char} :
    IsLetterNumber c = true ↔
      (97 ≤ c.toNat ∧ c.toNat ≤ 122) ∨ (65 ≤ c.toNat ∧ c.toNat ≤ 90) ∨
        (48 ≤ c.toNat ∧ c.toNat ≤ 57) := by
  simp [IsLetterNumber]
  tauto

theorem isLetterNumber_toUpper {c : Char} (h : IsLetterNumber c = true) :
    IsLetterNumber c.toUpper = true := by
  rw [isLetterNumber_iff] at h
  rw [Char.toUpper]
  split
  · next hrange =>
    have hv : (c.toNat - 32).isValidChar := Or.inl (by omega)
    rw [isLetterNumber_iff, char_toNat_ofNat hv]
    omega
  · next hrange =>
    rw [isLetterNumber_iff]
    omega

theorem isLetterNumber_toLower {c : Char} (h : IsLetterNumber c = true) :
    IsLetterNumber c.toLower = true := by
  rw [isLetterNumber_iff] at h
  rw [Char.toLower]
  split
  · next hrange =>
    have hv : (c.toNat + 32).isValidChar := Or.inl (by omega)
    rw [isLetterNumber_iff, char_toNat_ofNat hv]
    omega
  · next hrange =>
    rw [isLetterNumber_iff]
    omega

theorem lastIndexOf_append_single (c x : Char) (l : List Char) :
    lastIndexOf c (l ++ [x]) = if x == c then some l.length else lastIndexOf c l := by
  induction l with
  | nil => simp [lastIndexOf]
  | cons a l ih =>
    rw [List.cons_append, lastIndexOf, ih]
    by_cases hx : x == c
    · simp [hx, lastIndexOf]
    · simp only [hx, if_false]
      rw [lastIndexOf]
      cases lastIndexOf c l <;> simp

theorem contains_eq_isSome_lastIndexOf (c : Char) (l : List Char) :
    l.contains c = (lastIndexOf c l).isSome := by
  induction l with
  | nil => simp [lastIndexOf]
  | cons a l ih =>
    rw [lastIndexOf, List.contains_cons]
    cases hl : lastIndexOf c l with
    | some j =>
      rw [hl] at ih
      simp only [Option.isSome_some] at ih
      rw [ih]
      simp
    | none =>
      rw [hl] at ih
      simp only [Option.isSome_none] at ih
      have hca : (c == a) = (a == c) := by
        rw [Bool.eq_iff_iff]
        simp only [beq_iff_eq]
        exact eq_comm
      rw [ih, hca]
      cases hac : a == c <;> simp

theorem lastIndexOf_lt_length {c : Char} {l : List Char} {i : Nat}
    (h : lastIndexOf c l = some i) : i < l.length := by
  induction l generalizing i with
  | nil => simp [lastIndexOf] at h
  | cons a l ih =>
    rw [lastIndexOf] at h
    cases hl : lastIndexOf c l with
    | some j =>
      rw [hl] at h
      simp only [Option.some.injEq] at h
      have := ih hl
      simp only [List.length_cons]
      omega
    | none =>
      rw [hl] at h
      by_cases hac : a == c
      · simp [hac] at h
        simp [← h]
      · simp [hac] at h

theorem stem_eq (l : List Char) :
    (match lastIndexOf '.' l with
     | some i => l.take i
     | none => l) = stemSpec l := by
  induction l using List.reverseRecOn with
  | nil => simp [lastIndexOf, stemSpec]
  | append_singleton l x ih =>
    rw [lastIndexOf_append_single]
    by_cases hx : (x == '.') = true
    · rw [if_pos hx]
      have hx' : x = '.' := by simpa [beq_iff_eq] using hx
      subst hx'
      have hc : (l ++ ['.']).contains '.' = true := by
        rw [contains_eq_isSome_lastIndexOf, lastIndexOf_append_single]
        simp
      rw [stemSpec, if_pos hc, List.reverse_append]
      simp only [List.reverse_cons, List.reverse_nil, List.nil_append, List.singleton_append]
      rw [List.dropWhile_cons]
      simp only [beq_self_eq_true, Bool.not_true, if_false, Bool.false_eq_true]
      rw [List.drop_one, List.tail_cons, List.reverse_reverse, List.take_left]
    · rw [if_neg (by simpa using hx)]
      have hx0 : (x == '.') = false := by simpa using hx
      have hcontains : (l ++ [x]).contains '.' = l.contains '.' := by
        rw [contains_eq_isSome_lastIndexOf, contains_eq_isSome_lastIndexOf,
          lastIndexOf_append_single, hx0]
        simp
      cases hli : lastIndexOf '.' l with
      | some i =>
        rw [hli] at ih
        have hlen : i ≤ l.length := Nat.le_of_lt (lastIndexOf_lt_length hli)
        have hcl : l.contains '.' = true := by
          rw [contains_eq_isSome_lastIndexOf, hli]
          rfl
        rw [stemSpec, hcontains, if_pos hcl, List.reverse_append]
        simp only [List.reverse_cons, List.reverse_nil, List.nil_append, List.singleton_append]
        rw [List.dropWhile_cons]
        simp only [hx0, Bool.not_false, if_true]
        rw [List.take_append_of_le_length hlen]
        rw [stemSpec, if_pos hcl] at ih
        exact ih
      | none =>
        have hcl : l.contains '.' = false := by
          rw [contains_eq_isSome_lastIndexOf, hli]
          rfl
        rw [stemSpec, hcontains, if_neg (by rw [hcl]; exact Bool.false_ne_true)]

theorem foldl_deriveStep (l : List Char) : ∀ (cap : Bool) (acc : List Char),
    (l.foldl deriveStep (cap, acc)).2 = acc ++ NamespaceCore cap l := by
  induction l with
  | nil =>
    intro cap acc
    simp [NamespaceCore]
  | cons c rest ih =>
    intro cap acc
    rw [List.foldl_cons, NamespaceCore]
    by_cases hc : IsLetterNumber c = true
    · simp only [deriveStep, isAsciiLetterOrDigit_eq, hc, if_true]
      rw [ih]
      simp [List.append_assoc]
    · have hc0 : IsLetterNumber c = false := by
        cases h : IsLetterNumber c
        · rfl
        · exact absurd h hc
      simp only [deriveStep, isAsciiLetterOrDigit_eq, hc0, Bool.false_eq_true, if_false]
      exact ih true acc

theorem namespaceCore_alnum (l : List Char) : ∀ (cap : Bool), ∀ c ∈ NamespaceCore cap l,
    IsLetterNumber c = true := by
  induction l with
  | nil =>
    intro cap c hc
    simp [NamespaceCore] at hc
  | cons a rest ih =>
    intro cap c hc
    rw [NamespaceCore] at hc
    by_cases ha : IsLetterNumber a = true
    · rw [if_pos ha] at hc
      rcases List.mem_cons.mp hc with h | h
      · subst h
        cases cap
        · simp only [Bool.false_eq_true, if_false]
          exact isLetterNumber_toLower ha
        · simp only [if_true]
          exact isLetterNumber_toUpper ha
      · exact ih false c h
    · rw [if_neg ha] at hc
      exact ih true c hc

/-! ### Claim theorems: the identifier deriver -/

/-- C4: for every filename, `Namespace` (the source's identifier deriver)
computes exactly the reference algorithm stated by the spec: strip everything
from the last dot onward, return the empty string on an empty stem, and
otherwise scan the stem left to right with a start-of-segment flag, dropping
non-ASCII-alphanumerics (setting the flag) and appending ASCII alphanumerics,
upper-cased at a segment start and lower-cased otherwise. -/
theorem Namespace_eq_deriveIdentifierSpec (s : String) :
    Namespace s = deriveIdentifierSpec s := by
  rw [Namespace, deriveIdentifierSpec]
  simp only [stem_eq]
  by_cases h : stemSpec s.data = []
  · rw [if_pos h, if_pos (by rw [h]; simp)]
  · rw [if_neg h, if_neg (by intro hlen; exact h (List.length_eq_zero.mp (by omega)))]
    rw [foldl_deriveStep, List.nil_append]

/-- C5 counterexample: the claim asserts the derived identifier of
the filename with two dots is the single letter, but the code strips only the
final extension and derives both remaining segments. -/
theorem namespace_ab_ne : Namespace "a.b.ts" ≠ "A" := by decide

/-- C5 amended: only the final extension is stripped, so both segments of the
remaining stem are emitted capitalised. -/
theorem namespace_ab_eq : Namespace "a.b.ts" = "AB" := by decide

/-- C10: every character the deriver emits is an ASCII letter or digit, yet
the result can begin with a digit (as on the concrete filename here), so the
derived export name is not guaranteed to be a syntactically valid
identifier. -/
theorem namespace_output_alnum :
    (∀ s : String, ∀ c ∈ (Namespace s).data, IsLetterNumber c = true) ∧
    Namespace "2d.ts" = "2d" ∧ ("2d" : String).data.head? = some '2' ∧
    '2'.isDigit = true ∧ '2'.isAlpha = false := by
  have key : ∀ (stem : List Char) (c : Char),
      c ∈ (if stem.length < 1 then "" else String.mk (NamespaceCore true stem)).data →
        IsLetterNumber c = true := by
    intro stem c hc
    split at hc
    · exact absurd hc (List.not_mem_nil c)
    · exact namespaceCore_alnum stem true c hc
  refine ⟨?_, by decide, by decide, by decide, by decide⟩
  intro s c hc
  exact key (match lastIndexOf '.' s.data with
    | some i => s.data.take i
    | none => s.data) c hc

/-- Witness for C10 at a concrete input. -/
theorem namespace_output_alnum_witness :
    IsLetterNumber 'A' = true ∧ 'A' ∈ (Namespace "ab.ts").data :=
  ⟨namespace_output_alnum.1 "ab.ts" 'A' (by decide), by decide⟩

/-! ### Helper lemmas: the ignore context and the walker -/

theorem child_fullPath (ctx : Context) (folder : String) (r : Option (String → Bool)) :
    (Context.mk folder r (some ctx)).fullPath = ctx.fullPath ++ folder := by
  rw [Context.fullPath]

mutual
theorem barrelEntry_writes_long (compile : String → String → Bool) (ctx : Context) (e : FNode) :
    ∀ w ∈ (barrelEntry compile ctx e).2, ctx.fullPath.length + 7 ≤ w.1.length := by
  cases e with
  | file name =>
    intro w hw
    rw [barrelEntry] at hw
    split at hw
    · simp at hw
    · split at hw <;> simp at hw
  | dir name read entries =>
    intro w hw
    simp only [barrelEntry] at hw
    split at hw
    · simp at hw
    · split at hw
      · have hsub := barrelEntries_writes_long compile
          (Context.mk (name ++ "/") (loadRules compile read) (some ctx)) entries w hw
        rw [child_fullPath, String.length_append, String.length_append] at hsub
        omega
      · rcases List.mem_append.mp hw with hmem | hmem
        · have hsub := barrelEntries_writes_long compile
            (Context.mk (name ++ "/") (loadRules compile read) (some ctx)) entries w hmem
          rw [child_fullPath, String.length_append, String.length_append] at hsub
          omega
        · have hw1 : w.1 = (Context.mk (name ++ "/") (loadRules compile read)
              (some ctx)).fullPath ++ "mod.ts" := by
            rw [List.mem_singleton.mp hmem]
          rw [hw1, String.length_append, child_fullPath, String.length_append,
            String.length_append]
          have h6 : ("mod.ts" : String).length = 6 := rfl
          have h1 : ("/" : String).length = 1 := rfl
          rw [h6, h1]
          omega
  | other name =>
    intro w hw
    simp [barrelEntry] at hw
termination_by structural e

theorem barrelEntries_writes_long (compile : String → String → Bool) (ctx : Context)
    (l : FList) : ∀ w ∈ (barrelEntries compile ctx l).2, ctx.fullPath.length + 7 ≤ w.1.length := by
  cases l with
  | nil =>
    intro w hw
    simp [barrelEntries] at hw
  | cons e rest =>
    intro w hw
    simp only [barrelEntries] at hw
    rcases List.mem_append.mp hw with hmem | hmem
    · exact barrelEntry_writes_long compile ctx e w hmem
    · exact barrelEntries_writes_long compile ctx rest w hmem
termination_by structural l
end

theorem barrel_eq_if (compile : String → String → Bool) (parent : Option Context)
    (folder : String) (read : Except Unit String) (entries : FList) :
    barrel compile parent folder read entries =
      (if (barrelEntries compile (Context.mk folder (loadRules compile read) parent) entries).1.length < 1
       then (false, (barrelEntries compile (Context.mk folder (loadRules compile read) parent) entries).2)
       else (true, (barrelEntries compile (Context.mk folder (loadRules compile read) parent) entries).2 ++
         [((Context.mk folder (loadRules compile read) parent).fullPath ++ "mod.ts",
           render (barrelEntries compile (Context.mk folder (loadRules compile read) parent) entries).1)])) := rfl

theorem render_eq_concatLines_aux (l : List Entry) : ∀ acc : String,
    l.foldl (fun source e => source ++ renderLine e) acc = acc ++ concatLines l := by
  induction l with
  | nil =>
    intro acc
    rw [concatLines, List.foldl_nil, String.append_empty]
  | cons e rest ih =>
    intro acc
    rw [concatLines, List.foldl_cons, ih, String.append_assoc]

theorem render_eq_concatLines (l : List Entry) : render l = concatLines l := by
  rw [render, render_eq_concatLines_aux]
  rfl

theorem listAug_barrelEntries (compile : String → String → Bool) {l l' : FList}
    (h : ListAug l l') (ctx : Context) :
    barrelEntries compile ctx l' = barrelEntries compile ctx l := by
  refine @ListAug.rec
    (fun e e' _ => ∀ c : Context, barrelEntry compile c e' = barrelEntry compile c e)
    (fun a b _ => ∀ c : Context, barrelEntries compile c b = barrelEntries compile c a)
    ?_ ?_ ?_ ?_ ?_ ?_ l l' h ctx
  · intro n c
    rfl
  · intro n c
    rfl
  · intro n r es es' a ih c
    simp only [barrelEntry]
    rw [ih (Context.mk (n ++ "/") (loadRules compile r) (some c))]
  · intro c
    rfl
  · intro e e' l1 l1' ha hl ih1 ih2 c
    simp only [barrelEntries]
    rw [ih1 c, ih2 c]
  · intro l1 l1' ha ih c
    simp only [barrelEntries]
    rw [ih c]
    have hmod : barrelEntry compile c (.file "mod.ts") = ([], []) := rfl
    rw [hmod]
    simp

/-! ### Claim theorems: the ignore context and the walker -/

/-- C6: for every context — whatever its pattern set and parent chain —
`ignored` returns false on the version-control directory name and on the
dependency-cache directory name. -/
theorem ignored_structural_exceptions (c : Context) :
    c.ignored ".git" = false ∧ c.ignored "node_modules" = false := by
  cases c with
  | mk folder rules parent =>
    constructor
    · rw [Context.ignored.eq_def]
      rfl
    · rw [Context.ignored.eq_def]
      rfl

/-- C1: for every context and every path other than the two structural
exceptions, `ignored` resolves exactly as the spec states: a positive local
match short-circuits to true; with no local match (or no pattern set) and no
parent the answer is false; otherwise the answer is the parent's answer on
`folder + path`, the folder name carrying its trailing separator. -/
theorem ignored_cascade (folder : String) (rules : Option (String → Bool))
    (parent : Option Context) (p : String) (h1 : p ≠ ".git") (h2 : p ≠ "node_modules") :
    (∀ r, rules = some r → r p = true → (Context.mk folder rules parent).ignored p = true) ∧
    ((match rules with | some r => r p | none => false) = false → parent = none →
      (Context.mk folder rules parent).ignored p = false) ∧
    (∀ pc, parent = some pc →
      (match rules with | some r => r p | none => false) = false →
      (Context.mk folder rules parent).ignored p = pc.ignored (folder ++ p)) := by
  have hb1 : (p == ".git") = false := beq_eq_false_iff_ne.mpr h1
  have hb2 : (p == "node_modules") = false := beq_eq_false_iff_ne.mpr h2
  have hig : (Context.mk folder rules parent).ignored p =
      (if (match rules with | some r => r p | none => false) = true then true
       else match parent with | none => false | some pc => pc.ignored (folder ++ p)) := by
    rw [Context.ignored.eq_def]
    simp only [hb1, hb2, Bool.false_eq_true, if_false]
  refine ⟨?_, ?_, ?_⟩
  · intro r hr hrp
    rw [hig, hr] at *
    rw [if_pos hrp]
  · intro hm hp
    rw [hig, if_neg (by rw [hm]; exact Bool.false_ne_true), hp]
  · intro pc hp hm
    rw [hig, if_neg (by rw [hm]; exact Bool.false_ne_true), hp]

/-- Witness for C1: a local match returning true, a rule-less root returning
false, and a child deferring to its parent on the folder-prefixed path. -/
theorem ignored_cascade_witness :
    (Context.mk "f/" (some fun q => q == "x.ts") none).ignored "x.ts" = true ∧
    (Context.mk "f/" none none).ignored "y.ts" = false ∧
    (Context.mk "f/" none (some (Context.mk "./" none none))).ignored "y.ts" =
      (Context.mk "./" none none).ignored ("f/" ++ "y.ts") := by
  refine ⟨?_, ?_, ?_⟩
  · exact (ignored_cascade "f/" (some fun q => q == "x.ts") none "x.ts" (by decide)
      (by decide)).1 (fun q => q == "x.ts") rfl (by decide)
  · exact (ignored_cascade "f/" none none "y.ts" (by decide) (by decide)).2.1 rfl rfl
  · exact (ignored_cascade "f/" none (some (Context.mk "./" none none)) "y.ts" (by decide)
      (by decide)).2.2 (Context.mk "./" none none) rfl rfl

/-- C2: a non-skipped sub-directory entry is processed with no call to
`ignored` on its name — the context is arbitrary here, including ones whose
rules match the name — and is always recursed into via a child context; it
contributes an entry (relative path = name + separator + aggregator filename,
identifier derived from the name) exactly when the recursive walk reports it
produced output. -/
theorem barrelEntry_subdir (compile : String → String → Bool) (ctx : Context)
    (name : String) (read : Except Unit String) (entries : FList)
    (h : skipName name = false) :
    barrelEntry compile ctx (.dir name read entries) =
      (if (barrel compile (some ctx) (name ++ "/") read entries).1 then
        [⟨Namespace name, name ++ "/mod.ts"⟩] else [],
       (barrel compile (some ctx) (name ++ "/") read entries).2) := by
  rw [barrel_eq_if]
  simp only [barrelEntry, h, Bool.false_eq_true, if_false]
  by_cases hlen : (barrelEntries compile
      (Context.mk (name ++ "/") (loadRules compile read) (some ctx)) entries).1.length < 1
  · rw [if_pos hlen, if_pos hlen]
    rfl
  · rw [if_neg hlen, if_neg hlen]
    rfl

/-- Witness for C2: the parent's rules match the sub-directory's very name and
the directory is still recursed into and re-exported. -/
theorem barrelEntry_subdir_witness :
    barrelEntry (fun _ q => q == "qux") (Context.mk "./" (some fun q => q == "qux") none)
      (.dir "qux" (.error ()) (.cons (.file "a.ts") .nil)) =
      (if (barrel (fun _ q => q == "qux")
            (some (Context.mk "./" (some fun q => q == "qux") none))
            ("qux" ++ "/") (.error ()) (.cons (.file "a.ts") .nil)).1 then
        [⟨Namespace "qux", "qux" ++ "/mod.ts"⟩] else [],
       (barrel (fun _ q => q == "qux")
         (some (Context.mk "./" (some fun q => q == "qux") none))
         ("qux" ++ "/") (.error ()) (.cons (.file "a.ts") .nil)).2) :=
  barrelEntry_subdir (fun _ q => q == "qux") (Context.mk "./" (some fun q => q == "qux") none)
    "qux" (Except.error ()) (FList.cons (FNode.file "a.ts") FList.nil) (by decide)

/-- C3: when the walk of a directory collects no entries, `barrel` reports
false and none of its filesystem writes is that directory's aggregator file;
when it collects at least one entry, `barrel` reports true and the
directory's aggregator file is among the writes. -/
theorem barrel_writes_iff (compile : String → String → Bool) (parent : Option Context)
    (folder : String) (read : Except Unit String) (entries : FList) :
    ((barrelEntries compile (Context.mk folder (loadRules compile read) parent) entries).1 = [] →
      barrel compile parent folder read entries =
        (false, (barrelEntries compile (Context.mk folder (loadRules compile read) parent) entries).2) ∧
      ∀ w ∈ (barrel compile parent folder read entries).2,
        w.1 ≠ (Context.mk folder (loadRules compile read) parent).fullPath ++ "mod.ts") ∧
    ((barrelEntries compile (Context.mk folder (loadRules compile read) parent) entries).1 ≠ [] →
      (barrel compile parent folder read entries).1 = true ∧
      ((Context.mk folder (loadRules compile read) parent).fullPath ++ "mod.ts",
        render (barrelEntries compile (Context.mk folder (loadRules compile read) parent) entries).1)
        ∈ (barrel compile parent folder read entries).2) := by
  constructor
  · intro hempty
    have hlen : (barrelEntries compile (Context.mk folder (loadRules compile read) parent)
        entries).1.length < 1 := by
      rw [hempty]
      simp
    rw [barrel_eq_if, if_pos hlen]
    refine ⟨rfl, ?_⟩
    intro w hw heq
    have hlong := barrelEntries_writes_long compile
      (Context.mk folder (loadRules compile read) parent) entries w hw
    have : w.1.length = (Context.mk folder (loadRules compile read) parent).fullPath.length + 6 := by
      rw [heq, String.length_append]
      rfl
    omega
  · intro hne
    have hlen : ¬ (barrelEntries compile (Context.mk folder (loadRules compile read) parent)
        entries).1.length < 1 := by
      intro hlt
      exact hne (List.length_eq_zero.mp (by omega))
    rw [barrel_eq_if, if_neg hlen]
    exact ⟨rfl, List.mem_append_right _ (List.mem_singleton_self _)⟩

/-- Witness for C3: a directory holding only a device node produces no write
and reports false; a directory holding one plain file reports true and its
aggregator write is present. -/
theorem barrel_writes_iff_witness :
    barrel (fun _ _ => false) none "./" (Except.error ())
        (FList.cons (FNode.other "dev") FList.nil) = (false, []) ∧
    (barrel (fun _ _ => false) none "./" (Except.error ())
        (FList.cons (FNode.file "a.ts") FList.nil)).1 = true ∧
    ("./" ++ "mod.ts", render [⟨"A", "a.ts"⟩]) ∈
      (barrel (fun _ _ => false) none "./" (Except.error ())
        (FList.cons (FNode.file "a.ts") FList.nil)).2 := by
  refine ⟨?_, ?_, ?_⟩
  · exact ((barrel_writes_iff (fun _ _ => false) none "./" (Except.error ())
      (FList.cons (FNode.other "dev") FList.nil)).1 rfl).1
  · exact ((barrel_writes_iff (fun _ _ => false) none "./" (Except.error ())
      (FList.cons (FNode.file "a.ts") FList.nil)).2 (by decide)).1
  · exact ((barrel_writes_iff (fun _ _ => false) none "./" (Except.error ())
      (FList.cons (FNode.file "a.ts") FList.nil)).2 (by decide)).2

/-- C7: whenever the walk of a directory produces output, its aggregator write
carries exactly the concatenation, in collected order, of one
newline-terminated re-export line per entry — nothing before, between or
after. -/
theorem barrel_write_content (compile : String → String → Bool) (parent : Option Context)
    (folder : String) (read : Except Unit String) (entries : FList)
    (h : (barrelEntries compile (Context.mk folder (loadRules compile read) parent) entries).1 ≠ []) :
    (barrel compile parent folder read entries).2 =
      (barrelEntries compile (Context.mk folder (loadRules compile read) parent) entries).2 ++
        [((Context.mk folder (loadRules compile read) parent).fullPath ++ "mod.ts",
          concatLines (barrelEntries compile (Context.mk folder (loadRules compile read) parent) entries).1)] := by
  have hlen : ¬ (barrelEntries compile (Context.mk folder (loadRules compile read) parent)
      entries).1.length < 1 := by
    intro hlt
    exact h (List.length_eq_zero.mp (by omega))
  rw [barrel_eq_if, if_neg hlen, render_eq_concatLines]

/-- Witness for C7 at a concrete one-file directory. -/
theorem barrel_write_content_witness :
    (barrel (fun _ _ => false) none "./" (Except.error ())
        (FList.cons (FNode.file "a.ts") FList.nil)).2 =
      [("./" ++ "mod.ts", concatLines [⟨"A", "a.ts"⟩])] :=
  barrel_write_content (fun _ _ => false) none "./" (Except.error ())
    (FList.cons (FNode.file "a.ts") FList.nil) (by decide)

/-- C8: a failed rule-file read raises nothing (`WeakRead` yields `null`),
leaves the context's pattern set unset, and the directory walks exactly as if
it had no local rules. -/
theorem barrel_failed_ruleRead (compile : String → String → Bool) (parent : Option Context)
    (folder : String) (entries : FList) (e : Unit) :
    WeakRead (Except.error e) = none ∧
    loadRules compile (Except.error e) = none ∧
    barrel compile parent folder (Except.error e) entries =
      barrelNoLocalRules compile parent folder entries :=
  ⟨rfl, rfl, rfl⟩

/-- C9: aggregator files written by an earlier run — entries named after the
aggregator output file, inserted anywhere in the listings — do not alter the
walk's result: a second run over the augmented tree produces exactly the
writes of a run over the original tree. -/
theorem barrel_second_run (compile : String → String → Bool) (parent : Option Context)
    (folder : String) (read : Except Unit String) {es es' : FList} (h : ListAug es es') :
    barrel compile parent folder read es' = barrel compile parent folder read es := by
  rw [barrel_eq_if, barrel_eq_if,
    listAug_barrelEntries compile h (Context.mk folder (loadRules compile read) parent)]

/-- Witness for C9: the aggregator file gained after run one is skipped by run
two. -/
theorem barrel_second_run_witness :
    barrel (fun _ _ => false) none "./" (Except.error ())
        (FList.cons (FNode.file "mod.ts") (FList.cons (FNode.file "a.ts") FList.nil)) =
      barrel (fun _ _ => false) none "./" (Except.error ())
        (FList.cons (FNode.file "a.ts") FList.nil) :=
  barrel_second_run (fun _ _ => false) none "./" (Except.error ())
    (ListAug.insertMod (ListAug.cons (NodeAug.file "a.ts") ListAug.nil))
